import Mathlib

/-!
Shallow embedding of the dependency-compatibility resolver of
`src/eggs-next-setup/index.ts`: the registry client (`getPeerDependencies`,
`getCompatibleVersion`) and the resolver (`resolveDependencies`).

JavaScript values appearing in registry responses are modelled by `JsValue`.
Modelling conventions, stated once here:
- JSON numbers are modelled as integers (no claim depends on numeric values);
  JSON arrays are modelled as objects with index keys (`typeof` agrees).
- An object is an association list; JavaScript objects cannot hold two
  bindings for one key, so lookup takes the first binding.
- Strings are sequences of code points; `Object.keys` on a string yields its
  index strings, and indexing a string yields a one-character string, as in
  JavaScript.  Prototype properties other than `length` are not modelled
  (none is ever accessed by the code under study).
- A fetch (`axios.get`) either throws, modelled by `Except.error ()`, or
  yields a parsed body, modelled by `Except.ok` of a `JsValue`.
-/

/-- A JavaScript value as it can appear in a parsed registry response. -/
inductive JsValue where
  | vstr : String → JsValue
  | vnum : Int → JsValue
  | vbool : Bool → JsValue
  | vnull : JsValue
  | vundefined : JsValue
  | vobj : List (String × JsValue) → JsValue

/-- JavaScript truthiness: `undefined`, `null`, `false`, `0` and `""` are falsy. -/
def truthy : JsValue → Bool
  | .vstr s => !(s == "")
  | .vnum n => !(n == 0)
  | .vbool b => b
  | .vnull => false
  | .vundefined => false
  | .vobj _ => true

/-- JavaScript `typeof`; note `typeof null === "object"`. -/
def jsTypeof : JsValue → String
  | .vstr _ => "string"
  | .vnum _ => "number"
  | .vbool _ => "boolean"
  | .vnull => "object"
  | .vundefined => "undefined"
  | .vobj _ => "object"

/-- Test for the JavaScript `null` value. -/
def isNullJs : JsValue → Bool
  | .vnull => true
  | _ => false

/-- Test for a JavaScript string value. -/
def isStringJs : JsValue → Bool
  | .vstr _ => true
  | _ => false

/-- Test for a JavaScript object value (the only shape carrying entries). -/
def isObjJs : JsValue → Bool
  | .vobj _ => true
  | _ => false

/-- JavaScript `x || y`: `y` when `x` is falsy, else `x`. -/
def jsOr (x y : JsValue) : JsValue :=
  if truthy x then x else y

/-- First binding for a key in an object's association list. -/
def objLookup : List (String × JsValue) → String → Option JsValue
  | [], _ => none
  | e :: l, k => if e.1 = k then some e.2 else objLookup l k

/-- JavaScript property read `v[k]`.  Reading a property of `null` or
`undefined` throws; a missing property reads as `undefined`; on a string,
index keys read as one-character strings and `length` as a number. -/
def getField : JsValue → String → Except Unit JsValue
  | .vnull, _ => .error ()
  | .vundefined, _ => .error ()
  | .vobj l, k => .ok ((objLookup l k).getD .vundefined)
  | .vstr s, k => .ok
      (match (List.range s.data.length).find? (fun i => toString i == k) with
       | some i => (s.data.get? i).elim JsValue.vundefined (fun c => .vstr (String.singleton c))
       | none => if k = "length" then .vnum s.data.length else .vundefined)
  | _, _ => .ok .vundefined

/-- Index strings of a JavaScript string, as enumerated by `Object.keys`. -/
def stringKeys (s : String) : List String :=
  (List.range s.data.length).map (fun i => toString i)

/-- JavaScript `Object.keys`: throws on `null`/`undefined`, lists own keys of
objects, index strings of strings, and nothing for other primitives. -/
def objectKeys : JsValue → Except Unit (List String)
  | .vnull => .error ()
  | .vundefined => .error ()
  | .vobj l => .ok (l.map Prod.fst)
  | .vstr s => .ok (stringKeys s)
  | _ => .ok []

/-- Index entries of a JavaScript string, as enumerated by `Object.entries`. -/
def stringEntries (s : String) : List (String × JsValue) :=
  s.data.enum.map (fun p => (toString p.1, JsValue.vstr (String.singleton p.2)))

/-- JavaScript `Object.entries`: throws on `null`/`undefined`, lists own
entries of objects, index entries of strings, nothing for other primitives. -/
def jsEntries : JsValue → Except Unit (List (String × JsValue))
  | .vnull => .error ()
  | .vundefined => .error ()
  | .vobj l => .ok l
  | .vstr s => .ok (stringEntries s)
  | _ => .ok []

/-- JavaScript strict equality `v === s` against a known string `s`. -/
def jsStrictEqStr (v : JsValue) (s : String) : Bool :=
  match v with
  | .vstr t => t == s
  | _ => false

/-- The npm registry as seen by the code: the package-index endpoint
`GET registry/<package>` and the per-version endpoint
`GET registry/<package>/<version>`; each call either throws or yields a body. -/
structure Registry where
  index : String → Except Unit JsValue
  version : String → String → Except Unit JsValue

/-- One entry of the fixed request list `dependenciesToCheck`. -/
structure PackageRequest where
  name : String
  version : String
deriving DecidableEq

/-- The fixed auxiliary request list of the source (`dependenciesToCheck`). -/
def dependenciesToCheck : List PackageRequest :=
  [⟨"rxjs", "latest"⟩, ⟨"primeng", "latest"⟩, ⟨"primeflex", "latest"⟩,
   ⟨"keycloak-js", "latest"⟩, ⟨"keycloak-angular", "latest"⟩]

/-- Result shape of `resolveDependencies`. -/
structure ResolutionResult where
  packages : List String
  forceInstall : Bool
deriving DecidableEq

/-- Lexicographic comparison of code-point sequences, as JavaScript
`Array.prototype.sort` compares strings. -/
def lexLe : List Char → List Char → Bool
  | [], _ => true
  | _ :: _, [] => false
  | a :: as, b :: bs => if a < b then true else if b < a then false else lexLe as bs

/-- Plain string order used by the default JavaScript sort. -/
def strLe (a b : String) : Bool := lexLe a.data b.data

/-- Insert a string into a sorted list, keeping it sorted. -/
def insertSorted (x : String) : List String → List String
  | [] => [x]
  | y :: ys => if strLe x y then x :: y :: ys else y :: insertSorted x ys

/-- JavaScript `Array.prototype.sort()` on a list of strings. -/
def sortStrings : List String → List String
  | [] => []
  | x :: xs => insertSorted x (sortStrings xs)

/-- JavaScript `x || "latest"` applied to `sorted[0]`: both `undefined`
(empty array) and the empty string fall back to `"latest"`. -/
def orLatest : Option String → String
  | some s => if s = "" then "latest" else s
  | none => "latest"

/-- Effectful filter: JavaScript `Array.prototype.filter` whose predicate may
throw, aborting the whole filter. -/
def filterE {α : Type} (p : α → Except Unit Bool) : List α → Except Unit (List α)
  | [] => .ok []
  | x :: xs => do
    let b ← p x
    let rest ← filterE p xs
    pure (if b then x :: rest else rest)

/-- Filter predicate of `getCompatibleVersion`:
`(versions[v].peerDependencies || {})["@angular/core"] === angularVersion`. -/
def versionQualifies (versions : JsValue) (angularVersion : String) (v : String) :
    Except Unit Bool := do
  let entry ← getField versions v
  let pd ← getField entry "peerDependencies"
  let core ← getField (jsOr pd (.vobj [])) "@angular/core"
  pure (jsStrictEqStr core angularVersion)

/-- Body of the `try` block of `getCompatibleVersion`. -/
def tryGetCompatibleVersion (reg : Registry) (packageName angularVersion : String) :
    Except Unit String := do
  let data ← reg.index packageName
  if jsTypeof data = "object" ∧ isNullJs data = false then
    let versions ← getField data "versions"
    let keys ← objectKeys versions
    let qual ← filterE (versionQualifies versions angularVersion) keys
    pure (orLatest (sortStrings qual).head?)
  else
    pure "latest"

/-- Source `getCompatibleVersion`: the `catch` turns any throw into `"latest"`. -/
def getCompatibleVersion (reg : Registry) (packageName angularVersion : String) : String :=
  match tryGetCompatibleVersion reg packageName angularVersion with
  | .ok s => s
  | .error _ => "latest"

/-- Body of the `try` block of `getPeerDependencies`. -/
def tryGetPeerDependencies (reg : Registry) (packageName version : String) :
    Except Unit JsValue := do
  let data ← reg.version packageName version
  if jsTypeof data = "object" then
    let pd ← getField data "peerDependencies"
    pure (jsOr pd (.vobj []))
  else
    pure (.vobj [])

/-- Source `getPeerDependencies`: the `catch` turns any throw into `{}`. -/
def getPeerDependencies (reg : Registry) (packageName version : String) : JsValue :=
  match tryGetPeerDependencies reg packageName version with
  | .ok v => v
  | .error _ => .vobj []

/-- The mutable `compatibilityMap: Map<string, Set<string>>` of the source,
as an insertion-ordered association list whose value lists hold no duplicate
(the `Set` semantics). -/
abbrev CompatibilityMap := List (String × List String)

/-- First value list recorded under a key. -/
def cmapFind : CompatibilityMap → String → Option (List String)
  | [], _ => none
  | e :: m, k => if e.1 = k then some e.2 else cmapFind m k

/-- Source lines `if (!compatibilityMap.has(depName)) set(depName, new Set())`. -/
def cmapEnsure (m : CompatibilityMap) (k : String) : CompatibilityMap :=
  if (cmapFind m k).isSome then m else m ++ [(k, [])]

/-- Source line `compatibilityMap.get(depName)?.add(depVersion)`:
a `Set.add`, so a value already present is not duplicated. -/
def cmapAddVal (m : CompatibilityMap) (k v : String) : CompatibilityMap :=
  m.map (fun e => if e.1 = k then (e.1, if v ∈ e.2 then e.2 else e.2 ++ [v]) else e)

/-- Body of the `forEach` over `Object.entries(peerDeps)`: ensure the entry
exists, then record the value only when it is a string. -/
def cmapStep (m : CompatibilityMap) (e : String × JsValue) : CompatibilityMap :=
  match e.2 with
  | .vstr s => cmapAddVal (cmapEnsure m e.1) e.1 s
  | _ => cmapEnsure m e.1

/-- The whole `forEach` over one package's peer-dependency entries. -/
def applyEntries (m : CompatibilityMap) (l : List (String × JsValue)) : CompatibilityMap :=
  l.foldl cmapStep m

/-- Version specs recorded in the conflict map under one peer-dependency name. -/
def recordedSpecs (m : CompatibilityMap) (k : String) : List String :=
  (cmapFind m k).getD []

/-- One iteration of the `for (const pkg of dependenciesToCheck)` loop:
resolve a version, fetch its peer dependencies, push `name@version`, and
accumulate the peer entries into the conflict map. -/
def resolveStep (reg : Registry) (angularVersion : String)
    (acc : List String × CompatibilityMap) (pkg : PackageRequest) :
    Except Unit (List String × CompatibilityMap) := do
  let version := getCompatibleVersion reg pkg.name angularVersion
  let peerDeps := getPeerDependencies reg pkg.name version
  let entries ← jsEntries peerDeps
  pure (acc.1 ++ [pkg.name ++ "@" ++ version], applyEntries acc.2 entries)

/-- The resolution loop, generalised over the request list; the generator
specifier `@schematics/angular@<angularVersion>` seeds the package list. -/
def resolveAccum (reg : Registry) (angularVersion : String)
    (reqs : List PackageRequest) : Except Unit (List String × CompatibilityMap) :=
  List.foldlM (resolveStep reg angularVersion) (["@schematics/angular@" ++ angularVersion], []) reqs

/-- Source `resolveDependencies`, generalised over the request list:
`forceInstall` is set exactly when some conflict-map entry has size above 1. -/
def resolveDependenciesWith (reg : Registry) (angularVersion : String)
    (reqs : List PackageRequest) : Except Unit ResolutionResult := do
  let acc ← resolveAccum reg angularVersion reqs
  pure ⟨acc.1, acc.2.any (fun e => decide (1 < e.2.length))⟩

/-- Source `resolveDependencies`, over the fixed list `dependenciesToCheck`. -/
def resolveDependencies (reg : Registry) (angularVersion : String) :
    Except Unit ResolutionResult :=
  resolveDependenciesWith reg angularVersion dependenciesToCheck

/-- A version string of a package's registry listing whose declared peer
dependency on `@angular/core` strictly equals the target version. -/
def Qualifies (reg : Registry) (pk av ver : String) : Prop :=
  ∃ data versions keys, reg.index pk = Except.ok data ∧
    jsTypeof data = "object" ∧ isNullJs data = false ∧
    getField data "versions" = Except.ok versions ∧
    objectKeys versions = Except.ok keys ∧ ver ∈ keys ∧
    versionQualifies versions av ver = Except.ok true

/-! Basic facts about the `Except Unit` monad used by the embedding. -/

/-- Bind after a successful step runs the continuation. -/
@[simp] theorem exceptOkBind {α β : Type} (a : α) (f : α → Except Unit β) :
    (Except.ok a : Except Unit α) >>= f = f a := rfl

/-- Bind after a throw rethrows. -/
@[simp] theorem exceptErrorBind {α β : Type} (e : Unit) (f : α → Except Unit β) :
    (Except.error e : Except Unit α) >>= f = Except.error e := rfl

/-- The monadic return of `Except Unit` is `Except.ok`. -/
@[simp] theorem exceptPureEq {α : Type} (a : α) :
    (pure a : Except Unit α) = Except.ok a := rfl

/-! Facts about the plain string order and the modelled JavaScript sort. -/

/-- The code-point order is reflexive. -/
theorem lexLe_refl : ∀ a : List Char, lexLe a a = true
  | [] => rfl
  | c :: cs => by simp [lexLe, lt_irrefl, lexLe_refl cs]

/-- The code-point order is total. -/
theorem lexLe_total : ∀ a b : List Char, lexLe a b = true ∨ lexLe b a = true
  | [], _ => Or.inl rfl
  | _ :: _, [] => Or.inr rfl
  | a :: as, b :: bs => by
    rcases lt_trichotomy a b with h | h | h
    · exact Or.inl (by simp [lexLe, h])
    · subst h
      rcases lexLe_total as bs with h2 | h2
      · exact Or.inl (by simp [lexLe, lt_irrefl, h2])
      · exact Or.inr (by simp [lexLe, lt_irrefl, h2])
    · exact Or.inr (by simp [lexLe, h])

/-- The code-point order is transitive. -/
theorem lexLe_trans : ∀ a b c : List Char,
    lexLe a b = true → lexLe b c = true → lexLe a c = true
  | [], _, _, _, _ => rfl
  | _ :: _, [], _, h, _ => by simp [lexLe] at h
  | _ :: _, _ :: _, [], _, h => by simp [lexLe] at h
  | a :: as, b :: bs, c :: cs, h1, h2 => by
    rcases lt_trichotomy a b with hab | hab | hab
    · rcases lt_trichotomy b c with hbc | hbc | hbc
      · simp [lexLe, lt_trans hab hbc]
      · subst hbc; simp [lexLe, hab]
      · simp [lexLe, hbc, not_lt_of_lt hbc] at h2
    · subst hab
      rcases lt_trichotomy a c with hbc | hbc | hbc
      · simp [lexLe, hbc]
      · subst hbc
        simp [lexLe, lt_irrefl] at h1 h2 ⊢
        exact lexLe_trans as bs cs h1 h2
      · simp [lexLe, hbc, not_lt_of_lt hbc] at h2
    · simp [lexLe, hab, not_lt_of_lt hab] at h1

/-- The string order is reflexive. -/
theorem strLe_refl (a : String) : strLe a a = true := lexLe_refl a.data

/-- The string order is total. -/
theorem strLe_total (a b : String) : strLe a b = true ∨ strLe b a = true :=
  lexLe_total a.data b.data

/-- The string order is transitive. -/
theorem strLe_trans {a b c : String} (h1 : strLe a b = true) (h2 : strLe b c = true) :
    strLe a c = true := lexLe_trans a.data b.data c.data h1 h2

/-- A string below the empty string is empty. -/
theorem eq_empty_of_strLe_empty {a : String} (h : strLe a "" = true) : a = "" := by
  obtain ⟨d⟩ := a
  cases d with
  | nil => rfl
  | cons c cs => simp [strLe, lexLe] at h

/-- Membership is preserved by sorted insertion. -/
theorem mem_insertSorted {x y : String} :
    ∀ {l : List String}, y ∈ insertSorted x l ↔ y = x ∨ y ∈ l := by
  intro l
  induction l with
  | nil => simp [insertSorted]
  | cons z zs ih =>
    by_cases h : strLe x z = true
    · simp [insertSorted, h]
    · simp [insertSorted, h, ih]
      tauto

/-- Membership is preserved by the modelled sort. -/
theorem mem_sortStrings {y : String} :
    ∀ {l : List String}, y ∈ sortStrings l ↔ y ∈ l := by
  intro l
  induction l with
  | nil => simp [sortStrings]
  | cons x xs ih => simp [sortStrings, mem_insertSorted, ih]

/-- Sorted insertion never produces an empty list. -/
theorem insertSorted_ne_nil (x : String) : ∀ l : List String, insertSorted x l ≠ []
  | [] => by simp [insertSorted]
  | y :: ys => by
    by_cases h : strLe x y = true <;> simp [insertSorted, h]

/-- The head of the sorted list is below every element of the input. -/
theorem sortStrings_head_min :
    ∀ {l : List String} {m : String}, (sortStrings l).head? = some m →
      ∀ x ∈ l, strLe m x = true := by
  intro l
  induction l with
  | nil => intro m h; simp [sortStrings] at h
  | cons a l ih =>
    intro m hm x hx
    rw [sortStrings] at hm
    cases hs : sortStrings l with
    | nil =>
      have hl : l = [] := by
        by_contra hne
        obtain ⟨z, hz⟩ := List.exists_mem_of_ne_nil l hne
        have : z ∈ sortStrings l := mem_sortStrings.mpr hz
        simp [hs] at this
      subst hl
      have hma : a = m := by simpa [hs, insertSorted] using hm
      have hxa : x = a := by simpa using hx
      rw [← hma, hxa]
      exact strLe_refl a
    | cons b t =>
      rw [hs] at hm
      by_cases hab : strLe a b = true
      · rw [insertSorted, if_pos hab] at hm
        have hma : a = m := by simpa using hm
        rw [← hma]
        rcases List.mem_cons.mp hx with hxa | hxl
        · rw [hxa]; exact strLe_refl a
        · have hb := @ih b (by rw [hs]; rfl) x hxl
          exact strLe_trans hab hb
      · rw [insertSorted, if_neg hab] at hm
        have hmb : b = m := by simpa using hm
        rw [← hmb]
        rcases List.mem_cons.mp hx with hxa | hxl
        · rw [hxa]
          rcases strLe_total a b with h | h
          · exact absurd h hab
          · exact h
        · exact @ih b (by rw [hs]; rfl) x hxl

/-! Facts about the effectful filter. -/

/-- An element of the filtered output came from the input, and the predicate
returned `true` on it. -/
theorem filterE_mem {α : Type} {p : α → Except Unit Bool} :
    ∀ {l out : List α}, filterE p l = Except.ok out →
      ∀ x ∈ out, x ∈ l ∧ p x = Except.ok true := by
  intro l
  induction l with
  | nil =>
    intro out h x hx
    simp [filterE] at h
    subst h
    simp at hx
  | cons a l ih =>
    intro out h x hx
    rw [filterE] at h
    cases hp : p a with
    | error e => rw [hp] at h; simp at h
    | ok b =>
      rw [hp] at h
      cases hrest : filterE p l with
      | error e => rw [hrest] at h; simp at h
      | ok rest =>
        rw [hrest] at h
        simp at h
        cases b with
        | true =>
          simp at h
          subst h
          rcases List.mem_cons.mp hx with hxa | hxr
          · subst hxa
            exact ⟨List.mem_cons_self _ _, by cases e : p x <;> simp_all⟩
          · obtain ⟨h1, h2⟩ := ih hrest x hxr
            exact ⟨List.mem_cons_of_mem _ h1, h2⟩
        | false =>
          simp at h
          subst h
          obtain ⟨h1, h2⟩ := ih hrest x hx
          exact ⟨List.mem_cons_of_mem _ h1, h2⟩

/-- If the predicate returns `false` everywhere, the filter returns `[]`. -/
theorem filterE_all_false {α : Type} {p : α → Except Unit Bool} :
    ∀ {l : List α}, (∀ x ∈ l, p x = Except.ok false) → filterE p l = Except.ok [] := by
  intro l
  induction l with
  | nil => intro _; rfl
  | cons a l ih =>
    intro h
    rw [filterE, h a (List.mem_cons_self _ _), exceptOkBind,
      ih (fun x hx => h x (List.mem_cons_of_mem _ hx))]
    rfl

/-! Facts about the modelled registry client. -/

/-- A truthy value has entries (it is neither `null` nor `undefined`). -/
theorem jsEntries_ok_of_truthy {v : JsValue} (h : truthy v = true) :
    ∃ l, jsEntries v = Except.ok l := by
  cases v <;> simp [jsEntries] <;> simp [truthy] at h

/-- `getPeerDependencies` always yields a value with entries: a throw and a
falsy `peerDependencies` field both collapse to the empty object. -/
theorem jsEntries_getPeerDependencies (reg : Registry) (p v : String) :
    ∃ l, jsEntries (getPeerDependencies reg p v) = Except.ok l := by
  unfold getPeerDependencies
  cases htry : tryGetPeerDependencies reg p v with
  | error e => exact ⟨[], rfl⟩
  | ok val =>
    unfold tryGetPeerDependencies at htry
    cases hv : reg.version p v with
    | error e => rw [hv] at htry; simp at htry
    | ok data =>
      rw [hv, exceptOkBind] at htry
      by_cases ht : jsTypeof data = "object"
      · rw [if_pos ht] at htry
        cases hf : getField data "peerDependencies" with
        | error e => rw [hf] at htry; simp at htry
        | ok pd =>
          rw [hf, exceptOkBind, exceptPureEq] at htry
          have hval : val = jsOr pd (.vobj []) := by
            simpa using htry.symm
          subst hval
          unfold jsOr
          by_cases htr : truthy pd = true
          · rw [if_pos htr]
            exact jsEntries_ok_of_truthy htr
          · rw [if_neg htr]
            exact ⟨[], rfl⟩
      · rw [if_neg ht, exceptPureEq] at htry
        have hval : val = .vobj [] := by simpa using htry.symm
        subst hval
        exact ⟨[], rfl⟩

/-- One loop iteration never throws and appends exactly one
`name@version` specifier. -/
theorem resolveStep_eq (reg : Registry) (av : String) (ps : List String)
    (m : CompatibilityMap) (pkg : PackageRequest) :
    ∃ es, jsEntries (getPeerDependencies reg pkg.name
        (getCompatibleVersion reg pkg.name av)) = Except.ok es ∧
      resolveStep reg av (ps, m) pkg =
        Except.ok (ps ++ [pkg.name ++ "@" ++ getCompatibleVersion reg pkg.name av],
          applyEntries m es) := by
  obtain ⟨es, hes⟩ := jsEntries_getPeerDependencies reg pkg.name
    (getCompatibleVersion reg pkg.name av)
  exact ⟨es, hes, by simp [resolveStep, hes]⟩

/-- The resolution fold never throws; its package list is the seed followed by
one resolved specifier per request, in request order. -/
theorem resolveFold_ok (reg : Registry) (av : String) :
    ∀ (reqs : List PackageRequest) (ps : List String) (m : CompatibilityMap),
      ∃ cm, List.foldlM (resolveStep reg av) (ps, m) reqs =
        Except.ok (ps ++ reqs.map
          (fun p => p.name ++ "@" ++ getCompatibleVersion reg p.name av), cm)
  | [], ps, m => ⟨m, by simp [List.foldlM]⟩
  | q :: reqs, ps, m => by
    obtain ⟨es, _, hstep⟩ := resolveStep_eq reg av ps m q
    obtain ⟨cm, hfold⟩ := resolveFold_ok reg av reqs
      (ps ++ [q.name ++ "@" ++ getCompatibleVersion reg q.name av]) (applyEntries m es)
    refine ⟨cm, ?_⟩
    rw [List.foldlM_cons, hstep, exceptOkBind, hfold]
    simp

/-- The resolution loop over any request list never throws, and yields the
generator specifier followed by the resolved auxiliary specifiers. -/
theorem resolveAccum_ok (reg : Registry) (av : String) (reqs : List PackageRequest) :
    ∃ cm, resolveAccum reg av reqs =
      Except.ok (("@schematics/angular@" ++ av) :: reqs.map
        (fun p => p.name ++ "@" ++ getCompatibleVersion reg p.name av), cm) := by
  obtain ⟨cm, h⟩ := resolveFold_ok reg av reqs ["@schematics/angular@" ++ av] []
  exact ⟨cm, by simpa [resolveAccum] using h⟩

/-! Facts about the conflict map. -/

/-- Every value list of the conflict map is duplicate-free (`Set` semantics). -/
def cmapNodup (m : CompatibilityMap) : Prop := ∀ e ∈ m, e.2.Nodup

/-- Ensuring a key preserves duplicate-freeness. -/
theorem cmapNodup_ensure {m : CompatibilityMap} (h : cmapNodup m) (k : String) :
    cmapNodup (cmapEnsure m k) := by
  unfold cmapEnsure
  by_cases hf : (cmapFind m k).isSome
  · simpa [hf] using h
  · rw [if_neg hf]
    intro e he
    rcases List.mem_append.mp he with h1 | h1
    · exact h e h1
    · have : e = (k, []) := by simpa using h1
      rw [this]
      exact List.nodup_nil

/-- Recording a value preserves duplicate-freeness. -/
theorem cmapNodup_addVal {m : CompatibilityMap} (h : cmapNodup m) (k v : String) :
    cmapNodup (cmapAddVal m k v) := by
  intro e he
  unfold cmapAddVal at he
  rcases List.mem_map.mp he with ⟨e0, he0, heq⟩
  by_cases hk : e0.1 = k
  · rw [if_pos hk] at heq
    subst heq
    by_cases hv : v ∈ e0.2
    · simpa [hv] using h e0 he0
    · have hn := h e0 he0
      simp only [hv, if_neg, if_false]
      simp [List.nodup_append, hn, hv]
  · rw [if_neg hk] at heq
    subst heq
    exact h e0 he0

/-- One `forEach` body step preserves duplicate-freeness. -/
theorem cmapNodup_step {m : CompatibilityMap} (h : cmapNodup m) (e : String × JsValue) :
    cmapNodup (cmapStep m e) := by
  cases hv : e.2 with
  | vstr s => rw [cmapStep, hv]; exact cmapNodup_addVal (cmapNodup_ensure h _) _ _
  | vnum n => rw [cmapStep, hv]; exact cmapNodup_ensure h _
  | vbool b => rw [cmapStep, hv]; exact cmapNodup_ensure h _
  | vnull => rw [cmapStep, hv]; exact cmapNodup_ensure h _
  | vundefined => rw [cmapStep, hv]; exact cmapNodup_ensure h _
  | vobj l => rw [cmapStep, hv]; exact cmapNodup_ensure h _

/-- The whole `forEach` preserves duplicate-freeness. -/
theorem cmapNodup_applyEntries :
    ∀ (l : List (String × JsValue)) {m : CompatibilityMap}, cmapNodup m →
      cmapNodup (applyEntries m l)
  | [], _, h => h
  | e :: l, m, h => by
    rw [applyEntries, List.foldl_cons]
    exact cmapNodup_applyEntries l (cmapNodup_step h e)

/-- The conflict map built by the resolution fold is duplicate-free. -/
theorem cmapNodup_resolveFold (reg : Registry) (av : String) :
    ∀ (reqs : List PackageRequest) (ps : List String) (m : CompatibilityMap),
      cmapNodup m → ∀ {ps2 : List String} {cm : CompatibilityMap},
      List.foldlM (resolveStep reg av) (ps, m) reqs = Except.ok (ps2, cm) →
      cmapNodup cm
  | [], ps, m, hm, ps2, cm, h => by
    simp [List.foldlM] at h
    rw [← h.2]
    exact hm
  | q :: reqs, ps, m, hm, ps2, cm, h => by
    obtain ⟨es, _, hstep⟩ := resolveStep_eq reg av ps m q
    rw [List.foldlM_cons, hstep, exceptOkBind] at h
    exact cmapNodup_resolveFold reg av reqs _ _
      (cmapNodup_applyEntries es hm) h

/-- The conflict map of a completed resolution is duplicate-free. -/
theorem cmapNodup_resolveAccum {reg : Registry} {av : String}
    {reqs : List PackageRequest} {ps : List String} {cm : CompatibilityMap}
    (h : resolveAccum reg av reqs = Except.ok (ps, cm)) : cmapNodup cm :=
  cmapNodup_resolveFold reg av reqs _ _ (fun e he => absurd he (List.not_mem_nil e)) h

/-- A duplicate-free list longer than one holds two distinct elements. -/
theorem two_mem_of_nodup_one_lt {α : Type} :
    ∀ {l : List α}, l.Nodup → 1 < l.length → ∃ a ∈ l, ∃ b ∈ l, a ≠ b
  | [], _, hl => by simp at hl
  | [a], _, hl => by simp at hl
  | a :: b :: t, hn, _ => by
    refine ⟨a, List.mem_cons_self _ _, b,
      List.mem_cons_of_mem _ (List.mem_cons_self _ _), ?_⟩
    intro hab
    subst hab
    simp [List.nodup_cons] at hn

/-- A list holding two distinct elements is longer than one. -/
theorem one_lt_length_of_two_mem {α : Type} :
    ∀ {l : List α} {a b : α}, a ∈ l → b ∈ l → a ≠ b → 1 < l.length
  | [], a, b, ha, _, _ => by simp at ha
  | [x], a, b, ha, hb, hab => by
    simp at ha hb
    subst ha; subst hb
    exact absurd rfl hab
  | x :: y :: t, _, _, _, _, _ => by
    have hlen : (x :: y :: t).length = t.length + 2 := by simp
    omega

/-- Lookup distributes over append. -/
theorem cmapFind_append (m1 m2 : CompatibilityMap) (k : String) :
    cmapFind (m1 ++ m2) k =
      match cmapFind m1 k with
      | some v => some v
      | none => cmapFind m2 k := by
  induction m1 with
  | nil => simp [cmapFind]
  | cons e m1 ih =>
    by_cases he : e.1 = k
    · simp [cmapFind, he]
    · simp [cmapFind, he, ih]

/-- Ensuring a key never changes the recorded value lists. -/
theorem recordedSpecs_ensure (m : CompatibilityMap) (k0 k : String) :
    recordedSpecs (cmapEnsure m k0) k = recordedSpecs m k := by
  unfold cmapEnsure
  by_cases hf : (cmapFind m k0).isSome
  · rw [if_pos hf]
  · rw [if_neg hf]
    unfold recordedSpecs
    rw [cmapFind_append]
    cases hm : cmapFind m k with
    | some v => simp
    | none =>
      by_cases hk : k0 = k
      · simp [cmapFind, hk]
      · simp [cmapFind, hk]

/-- A value found after `Set.add` was already recorded or is the added one. -/
theorem mem_recordedSpecs_addVal :
    ∀ {m : CompatibilityMap} {k0 v k x : String},
      x ∈ recordedSpecs (cmapAddVal m k0 v) k →
      x ∈ recordedSpecs m k ∨ (k = k0 ∧ x = v) := by
  intro m
  induction m with
  | nil => intro k0 v k x h; simp [cmapAddVal, recordedSpecs, cmapFind] at h
  | cons e m ih =>
    intro k0 v k x h
    rw [cmapAddVal, List.map_cons] at h
    by_cases he0 : e.1 = k0
    · rw [if_pos he0] at h
      by_cases hek : e.1 = k
      · unfold recordedSpecs cmapFind at h ⊢
        rw [if_pos hek] at h ⊢
        simp at h ⊢
        by_cases hv : v ∈ e.2
        · rw [if_pos hv] at h
          exact Or.inl h
        · rw [if_neg hv] at h
          rcases List.mem_append.mp h with h1 | h1
          · exact Or.inl h1
          · have : x = v := by simpa using h1
            exact Or.inr ⟨by rw [← hek, he0], this⟩
      · unfold recordedSpecs cmapFind at h ⊢
        rw [if_neg hek] at h ⊢
        exact ih h
    · rw [if_neg he0] at h
      by_cases hek : e.1 = k
      · unfold recordedSpecs cmapFind at h ⊢
        rw [if_pos hek] at h ⊢
        exact Or.inl h
      · unfold recordedSpecs cmapFind at h ⊢
        rw [if_neg hek] at h ⊢
        exact ih h

/-- A value found after one `forEach` body step was already recorded, or is
the step's own string value under the step's own key. -/
theorem mem_recordedSpecs_step {m : CompatibilityMap} {e : String × JsValue}
    {k x : String} (h : x ∈ recordedSpecs (cmapStep m e) k) :
    x ∈ recordedSpecs m k ∨ (k = e.1 ∧ e.2 = JsValue.vstr x) := by
  cases hv : e.2 with
  | vstr s =>
    simp only [cmapStep, hv] at h
    rcases mem_recordedSpecs_addVal h with h1 | h1
    · rw [recordedSpecs_ensure] at h1
      exact Or.inl h1
    · exact Or.inr ⟨h1.1, by rw [h1.2]⟩
  | vnum n => simp only [cmapStep, hv] at h; rw [recordedSpecs_ensure] at h; exact Or.inl h
  | vbool b => simp only [cmapStep, hv] at h; rw [recordedSpecs_ensure] at h; exact Or.inl h
  | vnull => simp only [cmapStep, hv] at h; rw [recordedSpecs_ensure] at h; exact Or.inl h
  | vundefined => simp only [cmapStep, hv] at h; rw [recordedSpecs_ensure] at h; exact Or.inl h
  | vobj l => simp only [cmapStep, hv] at h; rw [recordedSpecs_ensure] at h; exact Or.inl h

/-- A value found after a whole `forEach` was already recorded, or entered as
the string value of one of the processed peer-dependency entries. -/
theorem mem_recordedSpecs_applyEntries :
    ∀ (l : List (String × JsValue)) (m : CompatibilityMap) (k x : String),
      x ∈ recordedSpecs (applyEntries m l) k →
      x ∈ recordedSpecs m k ∨ (k, JsValue.vstr x) ∈ l
  | [], m, k, x, h => Or.inl (by simpa [applyEntries] using h)
  | e :: l, m, k, x, h => by
    rw [applyEntries, List.foldl_cons] at h
    rcases mem_recordedSpecs_applyEntries l (cmapStep m e) k x h with h2 | h2
    · rcases mem_recordedSpecs_step h2 with h3 | h3
      · exact Or.inl h3
      · right
        have : (k, JsValue.vstr x) = e := by
          obtain ⟨hk, hv⟩ := h3
          rw [hk, ← hv]
        rw [this]
        exact List.mem_cons_self _ _
    · exact Or.inr (List.mem_cons_of_mem _ h2)

/-- Ensuring a key never flips the conflict scan: the new entry is empty. -/
theorem force_ensure (m : CompatibilityMap) (k0 : String) :
    (cmapEnsure m k0).any (fun e => decide (1 < e.2.length)) =
      m.any (fun e => decide (1 < e.2.length)) := by
  unfold cmapEnsure
  by_cases h : (cmapFind m k0).isSome <;> simp [h]

/-- A `forEach` over entries none of which has a string value never flips the
conflict scan. -/
theorem force_applyEntries_nonstring :
    ∀ (l : List (String × JsValue)) (m : CompatibilityMap),
      (∀ e ∈ l, isStringJs e.2 = false) →
      (applyEntries m l).any (fun e => decide (1 < e.2.length)) =
        m.any (fun e => decide (1 < e.2.length))
  | [], m, _ => rfl
  | e :: l, m, h => by
    have he : isStringJs e.2 = false := h e (List.mem_cons_self _ _)
    have hstep : cmapStep m e = cmapEnsure m e.1 := by
      cases hv : e.2 <;> simp [cmapStep, hv] <;> simp [isStringJs, hv] at he
    have hrec := force_applyEntries_nonstring l (cmapEnsure m e.1)
      (fun x hx => h x (List.mem_cons_of_mem _ hx))
    calc (applyEntries m (e :: l)).any (fun e => decide (1 < e.2.length))
        = (applyEntries (cmapEnsure m e.1) l).any (fun e => decide (1 < e.2.length)) := by
          rw [show applyEntries m (e :: l) = applyEntries (cmapStep m e) l from rfl, hstep]
      _ = m.any (fun e => decide (1 < e.2.length)) := hrec.trans (force_ensure m e.1)

/-! Dissection of `getCompatibleVersion`. -/

/-- A throw anywhere in the `try` body yields the `"latest"` fallback. -/
theorem gcv_of_tryError {reg : Registry} {pk av : String}
    (h : tryGetCompatibleVersion reg pk av = Except.error ()) :
    getCompatibleVersion reg pk av = "latest" := by
  simp [getCompatibleVersion, h]

/-- A failing package-index fetch yields the `"latest"` fallback. -/
theorem gcv_of_index_error {reg : Registry} {pk : String} (av : String)
    (h : reg.index pk = Except.error ()) :
    getCompatibleVersion reg pk av = "latest" := by
  apply gcv_of_tryError
  rw [tryGetCompatibleVersion, h, exceptErrorBind]

/-- With every intermediate step pinned, the `try` body returns the sorted
filtered list's first element, with the falsy fallback applied. -/
theorem tryGCV_eq {reg : Registry} {pk av : String} {data versions : JsValue}
    {keys qual : List String}
    (h1 : reg.index pk = Except.ok data)
    (h2 : jsTypeof data = "object") (h3 : isNullJs data = false)
    (h4 : getField data "versions" = Except.ok versions)
    (h5 : objectKeys versions = Except.ok keys)
    (h6 : filterE (versionQualifies versions av) keys = Except.ok qual) :
    tryGetCompatibleVersion reg pk av =
      Except.ok (orLatest (sortStrings qual).head?) := by
  rw [tryGetCompatibleVersion, h1, exceptOkBind, if_pos ⟨h2, h3⟩, h4, exceptOkBind,
    h5, exceptOkBind, h6, exceptOkBind, exceptPureEq]

/-- With every intermediate step pinned, `getCompatibleVersion` returns the
sorted filtered list's first element, with the falsy fallback applied. -/
theorem gcv_eq {reg : Registry} {pk av : String} {data versions : JsValue}
    {keys qual : List String}
    (h1 : reg.index pk = Except.ok data)
    (h2 : jsTypeof data = "object") (h3 : isNullJs data = false)
    (h4 : getField data "versions" = Except.ok versions)
    (h5 : objectKeys versions = Except.ok keys)
    (h6 : filterE (versionQualifies versions av) keys = Except.ok qual) :
    getCompatibleVersion reg pk av = orLatest (sortStrings qual).head? := by
  rw [getCompatibleVersion, tryGCV_eq h1 h2 h3 h4 h5 h6]

/-- A response that is not a non-null object yields the `"latest"` fallback. -/
theorem gcv_of_cond_false {reg : Registry} {pk : String} (av : String)
    {data : JsValue} (h1 : reg.index pk = Except.ok data)
    (h2 : ¬(jsTypeof data = "object" ∧ isNullJs data = false)) :
    getCompatibleVersion reg pk av = "latest" := by
  rw [getCompatibleVersion, tryGetCompatibleVersion, h1, exceptOkBind, if_neg h2,
    exceptPureEq]

/-- The filter predicate returns `false` on every key of a string value:
indexing a string yields a one-character string, whose `peerDependencies`
read is `undefined`, so the strict equality fails. -/
theorem versionQualifies_vstr (s av : String) :
    ∀ k ∈ stringKeys s, versionQualifies (JsValue.vstr s) av k = Except.ok false := by
  intro k hk
  obtain ⟨i, hi, hik⟩ := List.mem_map.mp hk
  obtain ⟨j, hj⟩ : ∃ j, (List.range s.data.length).find?
      (fun i2 => toString i2 == k) = some j := by
    cases hf : (List.range s.data.length).find? (fun i2 => toString i2 == k) with
    | some j => exact ⟨j, rfl⟩
    | none =>
      have := List.find?_eq_none.mp hf i hi
      simp [hik] at this
  have hjlen : j < s.data.length := List.mem_range.mp (List.mem_of_find?_eq_some hj)
  obtain ⟨c, hc⟩ : ∃ c, s.data.get? j = some c := by
    cases hg : s.data.get? j with
    | some c => exact ⟨c, rfl⟩
    | none => exact absurd (List.get?_eq_none.mp hg) (Nat.not_le_of_lt hjlen)
  have hfield : getField (JsValue.vstr s) k =
      Except.ok (JsValue.vstr (String.singleton c)) := by
    rw [getField, hj]
    simp only [List.get?_eq_getElem?] at hc
    simp [hc]
  rw [versionQualifies, hfield, exceptOkBind]
  rfl

/-! Concrete registry fixtures used for witnesses and the counterexample. -/

/-- Version-metadata entry declaring a peer dependency on `@angular/core`. -/
def peerEntry (av : String) : JsValue :=
  .vobj [("peerDependencies", .vobj [("@angular/core", .vstr av)])]

/-- Registry on which every fetch fails. -/
def emptyRegistry : Registry where
  index := fun _ => Except.error ()
  version := fun _ _ => Except.error ()

/-- Registry equal to `emptyRegistry` pointwise but defined differently. -/
def emptyRegistry2 : Registry where
  index := fun p => if p = "unused" then Except.error () else Except.error ()
  version := fun _ _ => Except.error ()

/-- Listing with the two qualifying versions `10.0.0` and `2.0.0`. -/
def minVersions : JsValue :=
  .vobj [("10.0.0", peerEntry "17.0.0"), ("2.0.0", peerEntry "17.0.0")]

/-- Registry whose listing of `pkg` is `minVersions`. -/
def minRegistry : Registry where
  index := fun p =>
    if p = "pkg" then Except.ok (.vobj [("versions", minVersions)]) else Except.error ()
  version := fun _ _ => Except.error ()

/-- Listing with the two qualifying versions `""` and `1.0.0`. -/
def cexVersions : JsValue :=
  .vobj [("", peerEntry "17.0.0"), ("1.0.0", peerEntry "17.0.0")]

/-- Registry whose listing of `pkg` is `cexVersions`. -/
def cexRegistry : Registry where
  index := fun p =>
    if p = "pkg" then Except.ok (.vobj [("versions", cexVersions)]) else Except.error ()
  version := fun _ _ => Except.error ()

/-- Listing with one version whose peer core version is `16.0.0` only. -/
def noMatchVersions : JsValue := .vobj [("1.0.0", peerEntry "16.0.0")]

/-- Registry whose listing of `pkg` is `noMatchVersions`. -/
def noMatchRegistry : Registry where
  index := fun p =>
    if p = "pkg" then Except.ok (.vobj [("versions", noMatchVersions)]) else Except.error ()
  version := fun _ _ => Except.error ()

/-- Registry on which `rxjs` and `primeng` declare conflicting peer
dependencies on `zone.js`. -/
def conflictRegistry : Registry where
  index := fun _ => Except.error ()
  version := fun p v =>
    if p = "rxjs" ∧ v = "latest" then
      Except.ok (.vobj [("peerDependencies", .vobj [("zone.js", .vstr "~0.11.0")])])
    else if p = "primeng" ∧ v = "latest" then
      Except.ok (.vobj [("peerDependencies", .vobj [("zone.js", .vstr "~0.14.0")])])
    else Except.error ()

/-- Registry whose index responses are plain strings. -/
def strRegistry : Registry where
  index := fun _ => Except.ok (JsValue.vstr "oops")
  version := fun _ _ => Except.error ()

/-! The claims. -/

/-- C1: for every batch of requests, the `forceInstall` flag returned by the
resolver is `true` if and only if some peer-dependency name was recorded with
more than one distinct version-spec string across all resolved packages. -/
theorem forceInstall_iff_conflict (reg : Registry) (av : String)
    (reqs : List PackageRequest) (pkgs : List String) (cmap : CompatibilityMap)
    (h : resolveAccum reg av reqs = Except.ok (pkgs, cmap)) :
    ∃ f, resolveDependenciesWith reg av reqs = Except.ok ⟨pkgs, f⟩ ∧
      (f = true ↔ ∃ name vs, (name, vs) ∈ cmap ∧ ∃ a ∈ vs, ∃ b ∈ vs, a ≠ b) := by
  refine ⟨cmap.any (fun e => decide (1 < e.2.length)), ?_, ?_⟩
  · rw [resolveDependenciesWith, h, exceptOkBind, exceptPureEq]
  · have hnd := cmapNodup_resolveAccum h
    constructor
    · intro hf
      obtain ⟨e, he, hlen⟩ := List.any_eq_true.mp hf
      obtain ⟨a, ha, b, hb, hab⟩ :=
        two_mem_of_nodup_one_lt (hnd e he) (of_decide_eq_true hlen)
      exact ⟨e.1, e.2, by rw [Prod.mk.eta]; exact he, a, ha, b, hb, hab⟩
    · rintro ⟨name, vs, hmem, a, ha, b, hb, hab⟩
      apply List.any_eq_true.mpr
      exact ⟨(name, vs), hmem, decide_eq_true (one_lt_length_of_two_mem ha hb hab)⟩

/-- C1 witness: two conflicting `zone.js` peer specs make the recorded
conflict real and the flag computable at a concrete registry. -/
theorem forceInstall_iff_conflict_witness :
    ∃ f, resolveDependenciesWith conflictRegistry "17.0.0" dependenciesToCheck =
        Except.ok ⟨["@schematics/angular@17.0.0", "rxjs@latest", "primeng@latest",
          "primeflex@latest", "keycloak-js@latest", "keycloak-angular@latest"], f⟩ ∧
      (f = true ↔ ∃ name vs,
        (name, vs) ∈ ([("zone.js", ["~0.11.0", "~0.14.0"])] : CompatibilityMap) ∧
        ∃ a ∈ vs, ∃ b ∈ vs, a ≠ b) :=
  forceInstall_iff_conflict conflictRegistry "17.0.0" dependenciesToCheck
    ["@schematics/angular@17.0.0", "rxjs@latest", "primeng@latest",
     "primeflex@latest", "keycloak-js@latest", "keycloak-angular@latest"]
    [("zone.js", ["~0.11.0", "~0.14.0"])] rfl

/-- C2 counterexample: the listing of `pkg` holds the two qualifying versions
`""` and `"1.0.0"`; the lexicographically smallest qualifying version string
is `""`, yet the function returns `"latest"`, because the final
`compatibleVersion || "latest"` treats the empty string as falsy. -/
theorem gcv_min_cex :
    cexRegistry.index "pkg" = Except.ok (.vobj [("versions", cexVersions)]) ∧
    objectKeys cexVersions = Except.ok ["", "1.0.0"] ∧
    filterE (versionQualifies cexVersions "17.0.0") ["", "1.0.0"] =
      Except.ok ["", "1.0.0"] ∧
    strLe "" "1.0.0" = true ∧
    getCompatibleVersion cexRegistry "pkg" "17.0.0" = "latest" ∧
    ("latest" : String) ≠ "" :=
  ⟨rfl, rfl, rfl, rfl, rfl, by decide⟩

/-- C2 (amended): with more than one qualifying version, none of which is the
empty string and with the filter evaluating cleanly, `getCompatibleVersion`
returns the lexicographically smallest qualifying version under plain string
ordering. -/
theorem gcv_min (reg : Registry) (pk av : String) (data versions : JsValue)
    (keys qual : List String)
    (h1 : reg.index pk = Except.ok data)
    (h2 : jsTypeof data = "object") (h3 : isNullJs data = false)
    (h4 : getField data "versions" = Except.ok versions)
    (h5 : objectKeys versions = Except.ok keys)
    (h6 : filterE (versionQualifies versions av) keys = Except.ok qual)
    (h7 : 1 < qual.length)
    (h8 : "" ∉ qual) :
    ∃ m, getCompatibleVersion reg pk av = m ∧ m ∈ qual ∧
      ∀ x ∈ qual, strLe m x = true := by
  have hq : qual ≠ [] := by
    intro h
    rw [h] at h7
    simp at h7
  have hs : sortStrings qual ≠ [] := by
    intro h
    obtain ⟨z, hz⟩ := List.exists_mem_of_ne_nil qual hq
    have hzs : z ∈ sortStrings qual := mem_sortStrings.mpr hz
    rw [h] at hzs
    simp at hzs
  obtain ⟨mn, t, hmt⟩ := List.exists_cons_of_ne_nil hs
  have hh : (sortStrings qual).head? = some mn := by rw [hmt]; rfl
  have hmem : mn ∈ qual := mem_sortStrings.mp (by
    rw [hmt]; exact List.mem_cons_self _ _)
  have hne : mn ≠ "" := fun h => h8 (h ▸ hmem)
  refine ⟨mn, ?_, hmem, sortStrings_head_min hh⟩
  rw [gcv_eq h1 h2 h3 h4 h5 h6, hh]
  simp [orLatest, hne]

/-- C2 witness: among the qualifying versions `10.0.0` and `2.0.0` the
resolver picks the string-smallest one. -/
theorem gcv_min_witness :
    ∃ m, getCompatibleVersion minRegistry "pkg" "17.0.0" = m ∧
      m ∈ ["10.0.0", "2.0.0"] ∧ ∀ x ∈ ["10.0.0", "2.0.0"], strLe m x = true :=
  gcv_min minRegistry "pkg" "17.0.0" (.vobj [("versions", minVersions)]) minVersions
    ["10.0.0", "2.0.0"] ["10.0.0", "2.0.0"] rfl rfl rfl rfl rfl rfl
    (by decide) (by decide)

/-- C3: a package with no qualifying version in its listing, or whose
metadata fetch fails, resolves to the literal `"latest"`. -/
theorem gcv_latest_fallback (reg : Registry) (pk av : String) :
    (reg.index pk = Except.error () → getCompatibleVersion reg pk av = "latest") ∧
    (∀ data versions keys, reg.index pk = Except.ok data →
      getField data "versions" = Except.ok versions →
      objectKeys versions = Except.ok keys →
      filterE (versionQualifies versions av) keys = Except.ok [] →
      getCompatibleVersion reg pk av = "latest") := by
  constructor
  · intro h
    exact gcv_of_index_error av h
  · intro data versions keys h1 h4 h5 h6
    by_cases h2 : jsTypeof data = "object" ∧ isNullJs data = false
    · rw [gcv_eq h1 h2.1 h2.2 h4 h5 h6]
      rfl
    · exact gcv_of_cond_false av h1 h2

/-- C3 witness: a failing fetch and a listing with no qualifying version both
yield `"latest"` at concrete registries. -/
theorem gcv_latest_fallback_witness :
    getCompatibleVersion emptyRegistry "rxjs" "17.0.0" = "latest" ∧
    getCompatibleVersion noMatchRegistry "pkg" "17.0.0" = "latest" :=
  ⟨(gcv_latest_fallback emptyRegistry "rxjs" "17.0.0").1 rfl,
   (gcv_latest_fallback noMatchRegistry "pkg" "17.0.0").2
     (.vobj [("versions", noMatchVersions)]) noMatchVersions ["1.0.0"]
     rfl rfl rfl rfl⟩

/-- C4: a registry fetch failure never aborts resolution: the resolver always
returns a complete result covering every request, and a package whose index
fetch fails appears with the `"latest"` fallback. -/
theorem resolve_no_abort (reg : Registry) (av : String) :
    ∃ r, resolveDependencies reg av = Except.ok r ∧
      r.packages = ("@schematics/angular@" ++ av) :: dependenciesToCheck.map
        (fun p => p.name ++ "@" ++ getCompatibleVersion reg p.name av) ∧
      ∀ p ∈ dependenciesToCheck, reg.index p.name = Except.error () →
        (p.name ++ "@" ++ "latest") ∈ r.packages := by
  obtain ⟨cm, h⟩ := resolveAccum_ok reg av dependenciesToCheck
  refine ⟨⟨("@schematics/angular@" ++ av) :: dependenciesToCheck.map
      (fun p => p.name ++ "@" ++ getCompatibleVersion reg p.name av),
      cm.any (fun e => decide (1 < e.2.length))⟩, ?_, rfl, ?_⟩
  · rw [resolveDependencies, resolveDependenciesWith, h, exceptOkBind, exceptPureEq]
  · intro p hp he
    apply List.mem_cons_of_mem
    apply List.mem_map.mpr
    exact ⟨p, hp, by rw [gcv_of_index_error av he]⟩

/-- C4 witness: with every fetch failing, resolution still completes and every
auxiliary package resolves to `"latest"`. -/
theorem resolve_no_abort_witness :
    ∃ r, resolveDependencies emptyRegistry "17.0.0" = Except.ok r ∧
      r.packages = ("@schematics/angular@" ++ "17.0.0") :: dependenciesToCheck.map
        (fun p => p.name ++ "@" ++ getCompatibleVersion emptyRegistry p.name "17.0.0") ∧
      ∀ p ∈ dependenciesToCheck, emptyRegistry.index p.name = Except.error () →
        (p.name ++ "@" ++ "latest") ∈ r.packages :=
  resolve_no_abort emptyRegistry "17.0.0"

/-- C5: for every request list of N auxiliary packages the resolver returns
exactly N+1 specifiers: the generator package pinned to the target framework
version first, then the resolved auxiliaries in their original order. -/
theorem resolve_packages_shape (reg : Registry) (av : String)
    (reqs : List PackageRequest) :
    ∃ r, resolveDependenciesWith reg av reqs = Except.ok r ∧
      r.packages = ("@schematics/angular@" ++ av) :: reqs.map
        (fun p => p.name ++ "@" ++ getCompatibleVersion reg p.name av) ∧
      r.packages.length = reqs.length + 1 ∧
      r.packages.head? = some ("@schematics/angular@" ++ av) := by
  obtain ⟨cm, h⟩ := resolveAccum_ok reg av reqs
  refine ⟨⟨("@schematics/angular@" ++ av) :: reqs.map
      (fun p => p.name ++ "@" ++ getCompatibleVersion reg p.name av),
      cm.any (fun e => decide (1 < e.2.length))⟩, ?_, rfl, by simp, rfl⟩
  rw [resolveDependenciesWith, h, exceptOkBind, exceptPureEq]

/-- Head membership helper. -/
theorem mem_of_headSome {α : Type} {l : List α} {a : α} (h : l.head? = some a) :
    a ∈ l := by
  cases l with
  | nil => simp at h
  | cons x t =>
    simp at h
    subst h
    exact List.mem_cons_self _ _

/-- C6: every resolved version is the literal `"latest"` or a version whose
declared peer dependency on `@angular/core` equals the target framework
version under exact string equality. -/
theorem resolved_version_compatible (reg : Registry) (pk av : String) :
    getCompatibleVersion reg pk av = "latest" ∨
      Qualifies reg pk av (getCompatibleVersion reg pk av) := by
  cases hidx : reg.index pk with
  | error e =>
    exact Or.inl (gcv_of_index_error av (by rw [hidx]))
  | ok data =>
    by_cases h2 : jsTypeof data = "object" ∧ isNullJs data = false
    · cases hvers : getField data "versions" with
      | error e =>
        left
        apply gcv_of_tryError
        rw [tryGetCompatibleVersion, hidx, exceptOkBind, if_pos h2, hvers]
        rfl
      | ok versions =>
        cases hkeys : objectKeys versions with
        | error e =>
          left
          apply gcv_of_tryError
          rw [tryGetCompatibleVersion, hidx, exceptOkBind, if_pos h2, hvers,
            exceptOkBind, hkeys]
          rfl
        | ok keys =>
          cases hq : filterE (versionQualifies versions av) keys with
          | error e =>
            left
            apply gcv_of_tryError
            rw [tryGetCompatibleVersion, hidx, exceptOkBind, if_pos h2, hvers,
              exceptOkBind, hkeys, exceptOkBind, hq]
            rfl
          | ok qual =>
            have hg := gcv_eq hidx h2.1 h2.2 hvers hkeys hq
            cases hh : (sortStrings qual).head? with
            | none =>
              left
              rw [hg, hh]
              rfl
            | some mn =>
              by_cases hmn : mn = ""
              · left
                rw [hg, hh]
                simp [orLatest, hmn]
              · right
                have hres : getCompatibleVersion reg pk av = mn := by
                  rw [hg, hh]
                  simp [orLatest, hmn]
                rw [hres]
                have hmem : mn ∈ qual := mem_sortStrings.mp (mem_of_headSome hh)
                obtain ⟨hkmem, hqtrue⟩ := filterE_mem hq mn hmem
                exact ⟨data, versions, keys, hidx, h2.1, h2.2, hvers, hkeys,
                  hkmem, hqtrue⟩
    · exact Or.inl (gcv_of_cond_false av hidx h2)

/-- C7: the resolver is deterministic in the registry data: identical
responses for every fetch yield identical resolution results. -/
theorem resolve_deterministic (reg1 reg2 : Registry) (av : String)
    (hidx : ∀ p, reg1.index p = reg2.index p)
    (hver : ∀ p v, reg1.version p v = reg2.version p v) :
    resolveDependencies reg1 av = resolveDependencies reg2 av := by
  have heq : reg1 = reg2 := by
    obtain ⟨i1, v1⟩ := reg1
    obtain ⟨i2, v2⟩ := reg2
    have hi : i1 = i2 := funext hidx
    have hv : v1 = v2 := funext (fun p => funext (hver p))
    rw [hi, hv]
  rw [heq]

/-- C7 witness: two differently written registries with identical responses
resolve identically. -/
theorem resolve_deterministic_witness :
    resolveDependencies emptyRegistry "17.0.0" =
      resolveDependencies emptyRegistry2 "17.0.0" :=
  resolve_deterministic emptyRegistry emptyRegistry2 "17.0.0"
    (fun _ => (ite_self (Except.error ())).symm) (fun _ _ => rfl)

/-- C8: a failing per-version fetch makes `getPeerDependencies` return the
empty mapping rather than raising, and the caller then records nothing. -/
theorem getPeerDependencies_soft_fail (reg : Registry) (pk v : String)
    (h : reg.version pk v = Except.error ()) :
    getPeerDependencies reg pk v = JsValue.vobj [] ∧
    jsEntries (getPeerDependencies reg pk v) = Except.ok [] := by
  have htry : tryGetPeerDependencies reg pk v = Except.error () := by
    rw [tryGetPeerDependencies, h]
    rfl
  constructor
  · rw [getPeerDependencies, htry]
  · rw [getPeerDependencies, htry]
    rfl

/-- C8 witness: the soft-failure contract at a concrete failing registry. -/
theorem getPeerDependencies_soft_fail_witness :
    getPeerDependencies emptyRegistry "rxjs" "latest" = JsValue.vobj [] ∧
    jsEntries (getPeerDependencies emptyRegistry "rxjs" "latest") = Except.ok [] :=
  getPeerDependencies_soft_fail emptyRegistry "rxjs" "latest" rfl

/-- C9: a peer-dependency entry whose value is not a string is silently
skipped: any recorded spec was already present or came from a string-valued
entry, and entries with no string value leave the conflict scan unchanged. -/
theorem nonstring_peer_values_skipped (m : CompatibilityMap)
    (l : List (String × JsValue)) (k s : String) :
    (s ∈ recordedSpecs (applyEntries m l) k →
      s ∈ recordedSpecs m k ∨ (k, JsValue.vstr s) ∈ l) ∧
    ((∀ e ∈ l, isStringJs e.2 = false) →
      (applyEntries m l).any (fun e => decide (1 < e.2.length)) =
        m.any (fun e => decide (1 < e.2.length))) :=
  ⟨mem_recordedSpecs_applyEntries l m k s, force_applyEntries_nonstring l m⟩

/-- C9 witness: a numeric peer-dependency value leaves the conflict scan of
the empty map unchanged. -/
theorem nonstring_peer_values_skipped_witness :
    (applyEntries [] [("zone.js", JsValue.vnum 3)]).any
        (fun e => decide (1 < e.2.length)) =
      ([] : CompatibilityMap).any (fun e => decide (1 < e.2.length)) :=
  (nonstring_peer_values_skipped [] [("zone.js", JsValue.vnum 3)] "zone.js" "x").2
    (by
      intro e he
      simp at he
      rw [he]
      rfl)

/-- C10: `getCompatibleVersion` is total over arbitrary response shapes: it
always returns a string, and each degenerate case — non-object data, a
`versions` field that is not an object, an empty-string qualifying version —
returns `"latest"`. -/
theorem gcv_total_degenerate (reg : Registry) (pk av : String) :
    (∃ s, getCompatibleVersion reg pk av = s) ∧
    (∀ data, reg.index pk = Except.ok data →
      jsTypeof data ≠ "object" ∨ isNullJs data = true →
      getCompatibleVersion reg pk av = "latest") ∧
    (∀ data versions, reg.index pk = Except.ok data →
      getField data "versions" = Except.ok versions → isObjJs versions = false →
      getCompatibleVersion reg pk av = "latest") ∧
    (∀ data versions keys qual, reg.index pk = Except.ok data →
      getField data "versions" = Except.ok versions →
      objectKeys versions = Except.ok keys →
      filterE (versionQualifies versions av) keys = Except.ok qual →
      "" ∈ qual → getCompatibleVersion reg pk av = "latest") := by
  refine ⟨⟨getCompatibleVersion reg pk av, rfl⟩, ?_, ?_, ?_⟩
  · intro data h1 hd
    apply gcv_of_cond_false av h1
    intro hc
    rcases hd with h | h
    · exact h hc.1
    · rw [hc.2] at h
      cases h
  · intro data versions h1 h4 hobj
    by_cases h2 : jsTypeof data = "object" ∧ isNullJs data = false
    · cases hv : versions with
      | vnull =>
        apply gcv_of_tryError
        rw [tryGetCompatibleVersion, h1, exceptOkBind, if_pos h2, h4, exceptOkBind, hv]
        rfl
      | vundefined =>
        apply gcv_of_tryError
        rw [tryGetCompatibleVersion, h1, exceptOkBind, if_pos h2, h4, exceptOkBind, hv]
        rfl
      | vnum n =>
        rw [gcv_eq h1 h2.1 h2.2 h4 (by rw [hv]; rfl) (by rw [hv]; rfl)]
        rfl
      | vbool b =>
        rw [gcv_eq h1 h2.1 h2.2 h4 (by rw [hv]; rfl) (by rw [hv]; rfl)]
        rfl
      | vstr s =>
        have hfil : filterE (versionQualifies versions av) (stringKeys s) =
            Except.ok [] := by
          rw [hv]
          exact filterE_all_false (versionQualifies_vstr s av)
        rw [gcv_eq h1 h2.1 h2.2 h4 (by rw [hv]; rfl) hfil]
        rfl
      | vobj l =>
        rw [hv] at hobj
        simp [isObjJs] at hobj
    · exact gcv_of_cond_false av h1 h2
  · intro data versions keys qual h1 h4 h5 h6 hmem
    by_cases h2 : jsTypeof data = "object" ∧ isNullJs data = false
    · have hq : qual ≠ [] := fun h => by
        rw [h] at hmem
        simp at hmem
      have hs : sortStrings qual ≠ [] := by
        intro h
        have hzs : ("" : String) ∈ sortStrings qual := mem_sortStrings.mpr hmem
        rw [h] at hzs
        simp at hzs
      obtain ⟨mn, t, hmt⟩ := List.exists_cons_of_ne_nil hs
      have hh : (sortStrings qual).head? = some mn := by rw [hmt]; rfl
      have hmin : strLe mn "" = true := sortStrings_head_min hh "" hmem
      have hmne : mn = "" := eq_empty_of_strLe_empty hmin
      rw [gcv_eq h1 h2.1 h2.2 h4 h5 h6, hh]
      simp [orLatest, hmne]
    · exact gcv_of_cond_false av h1 h2

/-- C10 witness: a plain-string index response yields `"latest"`. -/
theorem gcv_total_degenerate_witness :
    getCompatibleVersion strRegistry "rxjs" "17.0.0" = "latest" :=
  (gcv_total_degenerate strRegistry "rxjs" "17.0.0").2.1 (JsValue.vstr "oops") rfl
    (Or.inl (by decide))
